import Mathlib

/-!
Verification of `string_utils.h` (namespace `nonstd::string_utils`).

Strings are modelled as `List Char`.  Loops of the C++ code that scan with
`std::string_view::find` are modelled with explicit fuel: a result of `none`
means the loop did not finish within the given fuel.  For every non-empty
token the fuel `sv.length + 1` is proved sufficient, so `none` at that fuel
witnesses genuine non-termination of the corresponding C++ loop.
-/

namespace StringUtils

/-- `sv.substr(pos, len)` of `std::string_view`: the slice starting at `pos`
of length `len`, clamped to the end of the string. -/
def substr (sv : List Char) (pos len : Nat) : List Char :=
  (sv.drop pos).take len

/-- Does `token` occur in `sv` starting exactly at index `i`?  This mirrors
the success condition of `std::string_view::find` at position `i`
(for an empty token it holds whenever `i ≤ sv.length`, as in libstdc++). -/
def matchesAt (sv token : List Char) (i : Nat) : Bool :=
  decide (i + token.length ≤ sv.length) && decide (substr sv i token.length = token)

/-- Bounded linear scan for the first match at or after `pos`; `k` bounds the
number of candidate positions inspected. -/
def findFromK (sv token : List Char) : Nat → Nat → Option Nat
  | 0, _ => none
  | k + 1, pos => if matchesAt sv token pos then some pos else findFromK sv token k (pos + 1)

/-- `sv.find(token, pos)`: index of the first occurrence of `token` in `sv`
at or after `pos`, `none` playing the role of `npos`. -/
def findFrom (sv token : List Char) (pos : Nat) : Option Nat :=
  findFromK sv token (sv.length + 1 - pos) pos

/-- A non-owning view into the subject, as returned by `std::string_view::substr`:
a (position, length) pair. -/
structure View where
  pos : Nat
  len : Nat
deriving DecidableEq, Repr

/-- Reading a view back as the character sequence it denotes. -/
def View.materialize (sv : List Char) (v : View) : List Char :=
  substr sv v.pos v.len

/-- `detail::split_keep_empty`, parametrised (like the C++ template parameter `T`)
by how a `substr(pos, len)` of the subject is turned into an emitted part.
The loop: find the next occurrence, emit `substr(start, i - start)`, continue
past the token; when no occurrence remains emit `substr(start)`. -/
def splitKeepEmptyFuel (emit : Nat → Nat → α) (sv token : List Char) :
    Nat → Nat → Option (List α)
  | 0, _ => none
  | fuel + 1, start =>
    match findFrom sv token start with
    | some i =>
      (splitKeepEmptyFuel emit sv token fuel (i + token.length)).map
        (fun rest => emit start (i - start) :: rest)
    | none => some [emit start (sv.length - start)]

/-- `detail::split_ignore_empty`: as `split_keep_empty` but a part is emitted
only when its length is non-zero, the trailing remainder included. -/
def splitIgnoreEmptyFuel (emit : Nat → Nat → α) (sv token : List Char) :
    Nat → Nat → Option (List α)
  | 0, _ => none
  | fuel + 1, start =>
    match findFrom sv token start with
    | some i =>
      if i - start > 0 then
        (splitIgnoreEmptyFuel emit sv token fuel (i + token.length)).map
          (fun rest => emit start (i - start) :: rest)
      else splitIgnoreEmptyFuel emit sv token fuel (i + token.length)
    | none => if sv.length - start > 0 then some [emit start (sv.length - start)] else some []

/-- `detail::split_keep_empty` run from the start with adequate fuel. -/
def split_keep_empty (emit : Nat → Nat → α) (sv token : List Char) : Option (List α) :=
  splitKeepEmptyFuel emit sv token (sv.length + 1) 0

/-- `detail::split_ignore_empty` run from the start with adequate fuel. -/
def split_ignore_empty (emit : Nat → Nat → α) (sv token : List Char) : Option (List α) :=
  splitIgnoreEmptyFuel emit sv token (sv.length + 1) 0

/-- `split(sv, token, keep_empty_parts)`: the view-returning variant. -/
def split (sv token : List Char) (keep_empty_parts : Bool) : Option (List View) :=
  if keep_empty_parts then split_keep_empty View.mk sv token
  else split_ignore_empty View.mk sv token

/-- `split_copy(sv, token, keep_empty_parts)`: the owned-string variant;
the template is instantiated so that each emitted part is the copied slice. -/
def split_copy (sv token : List Char) (keep_empty_parts : Bool) : Option (List (List Char)) :=
  if keep_empty_parts then split_keep_empty (substr sv) sv token
  else split_ignore_empty (substr sv) sv token

/-- `split_first(sv, token)`: views of the part before the first occurrence and
of the part after it; `(sv, {})` when there is no occurrence. -/
def split_first (sv token : List Char) : View × View :=
  match findFrom sv token 0 with
  | some i => (⟨0, i⟩, ⟨i + token.length, sv.length - (i + token.length)⟩)
  | none => (⟨0, sv.length⟩, ⟨0, 0⟩)

/-- `split_first_copy(sv, token)`: the owned-string variant of `split_first`. -/
def split_first_copy (sv token : List Char) : List Char × List Char :=
  match findFrom sv token 0 with
  | some i => (substr sv 0 i, substr sv (i + token.length) (sv.length - (i + token.length)))
  | none => (sv, [])

/-- The pre-scan loop of `replace`: collect the start offsets of all
non-overlapping occurrences, advancing past each match. -/
def findAllFuel (sv token : List Char) : Nat → Nat → Option (List Nat)
  | 0, _ => none
  | fuel + 1, pos =>
    match findFrom sv token pos with
    | some p => (findAllFuel sv token fuel (p + token.length)).map (fun rest => p :: rest)
    | none => some []

/-- The single-pass reconstruction loop of `replace`: for each match position,
copy the unmatched span from the cursor, then the replacement, then continue
past the matched span; finally copy the remaining tail. -/
def reconstruct (sv replaceTok : List Char) (searchLen : Nat) : Nat → List Nat → List Char
  | cursor, [] => sv.drop cursor
  | cursor, p :: rest =>
    substr sv cursor (p - cursor) ++ replaceTok ++
      reconstruct sv replaceTok searchLen (p + searchLen) rest

/-- `replace(sv, search_token, replace_token)`: pre-scan for all match
positions; if none, return a copy of `sv`; otherwise build the output of the
exact size `len(sv) - n*len(search) + n*len(replace)` in one pass. -/
def replace (sv search_token replace_token : List Char) : Option (List Char) :=
  match findAllFuel sv search_token (sv.length + 1) 0 with
  | none => none
  | some [] => some sv
  | some positions => some (reconstruct sv replace_token search_token.length 0 positions)

/-- The width of `std::size_t`: the cursor arithmetic of `ascii::split` is
computed in `size_t` and wraps modulo `2 ^ 64`. -/
def sizeTW : Nat := 2 ^ 64

/-- The loop of `ascii::split` (the fixed-width chunker): while the cursor is
inside the string, emit `substr(i, character_count)` and advance the cursor by
`character_count + skip` — computed in `size_t`: the sum of the two arguments
wraps modulo `2 ^ 64`, and so does its addition to the cursor. -/
def chunkFuel (sv : List Char) (character_count skip : Nat) : Nat → Nat → Option (List (List Char))
  | 0, _ => none
  | fuel + 1, i =>
    if i < sv.length then
      (chunkFuel sv character_count skip fuel
          ((i + (character_count + skip) % sizeTW) % sizeTW)).map
        (fun rest => substr sv i character_count :: rest)
    else some []

/-- `ascii::split(sv, character_count, skip)`: empty result when
`character_count` is zero, else the chunking loop from cursor `0`. -/
def ascii_split (sv : List Char) (character_count skip : Nat) : Option (List (List Char)) :=
  if character_count = 0 then some []
  else chunkFuel sv character_count skip (sv.length + 1) 0

/-- The loop of `detail::compare`, with `List.get?`-indexing so that an
out-of-bounds dereference is observable as `none`.  `k` is the common offset of
the iterators `a` (into `s₁`) and `b` (into `s₂`); `r = s₂.length - k` is the
distance of `b` from `last`, so `r > 0` is the loop condition `b != last`.
The body evaluates `*(++a)` and `*(++b)` — the dereferences at offset `k + 1` —
and on a mismatch falls through to the final `b == last` test. -/
def compareLoopChecked (s₁ s₂ : List Char) : Nat → Nat → Option Bool
  | _, 0 => some true
  | k, r + 1 =>
    match s₁.get? (k + 1), s₂.get? (k + 1) with
    | some c₁, some c₂ =>
      if c₁ = c₂ then compareLoopChecked s₁ s₂ (k + 1) r
      else some (decide (k + 1 = s₂.length))
    | _, _ => none

/-- `detail::compare(a, b, last)` with checked indexing: first dereference of
`*a` and `*b`, then the walk; `none` marks a read at or past the end of a
sequence. -/
def compareChecked (s₁ s₂ : List Char) : Option Bool :=
  match s₁.get? 0, s₂.get? 0 with
  | some c₁, some c₂ =>
    if c₁ = c₂ then compareLoopChecked s₁ s₂ 0 s₂.length else some false
  | _, _ => none

/-- `starts_with` over the checked comparator. -/
def starts_with_checked (sv test : List Char) : Option Bool :=
  if sv.length = 0 ∨ test.length = 0 ∨ sv.length < test.length then some false
  else compareChecked sv test

/-- `ends_with` over the checked comparator: the reverse-iterator walk is the
forward walk over the reversed sequences. -/
def ends_with_checked (sv test : List Char) : Option Bool :=
  if sv.length = 0 ∨ test.length = 0 ∨ sv.length < test.length then some false
  else compareChecked sv.reverse test.reverse

/-- The loop of `detail::compare` under the semantics in which a read past the
end of a sequence yields an arbitrary junk byte (`j₁` for `s₁`, `j₂` for `s₂`),
which is what the compiled C++ computes with. -/
def compareLoopJunk (s₁ s₂ : List Char) (j₁ j₂ : Char) : Nat → Nat → Bool
  | _, 0 => true
  | k, r + 1 =>
    if s₁.getD (k + 1) j₁ = s₂.getD (k + 1) j₂ then compareLoopJunk s₁ s₂ j₁ j₂ (k + 1) r
    else decide (k + 1 = s₂.length)

/-- `detail::compare` under the junk-byte semantics. -/
def compareJunk (s₁ s₂ : List Char) (j₁ j₂ : Char) : Bool :=
  if s₁.getD 0 j₁ = s₂.getD 0 j₂ then compareLoopJunk s₁ s₂ j₁ j₂ 0 s₂.length else false

/-- `starts_with(sv, test)`: false when either input is empty or `test` is
longer than `sv`; otherwise the byte walk from the front. -/
def starts_with (sv test : List Char) (j₁ j₂ : Char) : Bool :=
  if sv.length = 0 ∨ test.length = 0 ∨ sv.length < test.length then false
  else compareJunk sv test j₁ j₂

/-- `ends_with(sv, test)`: false on the same degenerate inputs; otherwise the
byte walk from the back (reverse iterators). -/
def ends_with (sv test : List Char) (j₁ j₂ : Char) : Bool :=
  if sv.length = 0 ∨ test.length = 0 ∨ sv.length < test.length then false
  else compareJunk sv.reverse test.reverse j₁ j₂

/-- Specification-side count of the non-overlapping left-to-right occurrences
of `token`: scan from the left; at a match, count it and jump past it. -/
def countOcc (token : List Char) : List Char → Nat
  | [] => 0
  | c :: rest =>
    if h : token ≠ [] ∧ token.isPrefixOf (c :: rest) then
      countOcc token ((c :: rest).drop token.length) + 1
    else countOcc token rest
termination_by s => s.length
decreasing_by
  · simp only [List.length_drop]
    have : token.length ≠ 0 := fun hh => h.1 (List.eq_nil_of_length_eq_zero hh)
    simp only [List.length_cons]
    omega
  · simp

/-- Interleave the parts with the token: `joinWith t [a, b, c] = a ++ t ++ b ++ t ++ c`. -/
def joinWith (token : List Char) : List (List Char) → List Char
  | [] => []
  | [x] => x
  | x :: y :: rest => x ++ token ++ joinWith token (y :: rest)

/-- No occurrence of the token starts at an index in `[lo, hi)`. -/
def NoMatchIn (sv token : List Char) (lo hi : Nat) : Prop :=
  ∀ j, lo ≤ j → j < hi → matchesAt sv token j = false

/-- The invariant of the positions the pre-scan produces from a given cursor:
each recorded position is at or after the cursor, is an actual match, nothing
was skipped before it, and the rest of the list continues past the match;
after the last one there is no further match. -/
def GoodPos (sv token : List Char) : Nat → List Nat → Prop
  | cursor, [] => NoMatchIn sv token cursor (sv.length + 1)
  | cursor, p :: rest =>
    cursor ≤ p ∧ matchesAt sv token p = true ∧ NoMatchIn sv token cursor p ∧
      GoodPos sv token (p + token.length) rest

theorem matchesAt_oob {sv token : List Char} {i : Nat} (h : sv.length < i) :
    matchesAt sv token i = false := by
  simp only [matchesAt, Bool.and_eq_false_iff, decide_eq_false_iff_not]
  omega

theorem findFromK_some {sv token : List Char} :
    ∀ {k pos p : Nat}, findFromK sv token k pos = some p →
      pos ≤ p ∧ p < pos + k ∧ matchesAt sv token p = true ∧
      ∀ j, pos ≤ j → j < p → matchesAt sv token j = false := by
  intro k
  induction k with
  | zero => intro pos p h; simp [findFromK] at h
  | succ k ih =>
    intro pos p h
    simp only [findFromK] at h
    by_cases hm : matchesAt sv token pos = true
    · simp [hm] at h
      subst h
      exact ⟨le_refl _, by omega, hm, fun j h1 h2 => absurd h1 (by omega)⟩
    · simp [hm] at h
      obtain ⟨h1, h2, h3, h4⟩ := ih h
      refine ⟨by omega, by omega, h3, fun j hj1 hj2 => ?_⟩
      rcases Nat.eq_or_lt_of_le hj1 with rfl | hlt
      · simpa using hm
      · exact h4 j hlt hj2

theorem findFromK_none {sv token : List Char} :
    ∀ {k pos : Nat}, findFromK sv token k pos = none →
      ∀ j, pos ≤ j → j < pos + k → matchesAt sv token j = false := by
  intro k
  induction k with
  | zero => intro pos _ j h1 h2; omega
  | succ k ih =>
    intro pos h j h1 h2
    simp only [findFromK] at h
    by_cases hm : matchesAt sv token pos = true
    · simp [hm] at h
    · simp [hm] at h
      rcases Nat.eq_or_lt_of_le h1 with rfl | hlt
      · simpa using hm
      · exact ih h j hlt (by omega)

theorem findFrom_some {sv token : List Char} {pos p : Nat}
    (h : findFrom sv token pos = some p) :
    pos ≤ p ∧ matchesAt sv token p = true ∧
    ∀ j, pos ≤ j → j < p → matchesAt sv token j = false := by
  obtain ⟨h1, _, h3, h4⟩ := findFromK_some h
  exact ⟨h1, h3, h4⟩

theorem findFrom_none {sv token : List Char} {pos : Nat}
    (h : findFrom sv token pos = none) :
    ∀ j, pos ≤ j → matchesAt sv token j = false := by
  intro j hj
  by_cases hjs : sv.length < j
  · exact matchesAt_oob hjs
  · exact findFromK_none h j hj (by omega)

/-- A successful match lies within the string. -/
theorem matchesAt_le {sv token : List Char} {i : Nat}
    (h : matchesAt sv token i = true) : i + token.length ≤ sv.length := by
  simp only [matchesAt, Bool.and_eq_true, decide_eq_true_eq] at h
  exact h.1

theorem matchesAt_take {sv token : List Char} {i : Nat}
    (h : matchesAt sv token i = true) : (sv.drop i).take token.length = token := by
  simp only [matchesAt, Bool.and_eq_true, decide_eq_true_eq, substr] at h
  exact h.2

/-- With an empty token, `find` succeeds at the current position
(`find("")` returns `pos` whenever `pos ≤ size`). -/
theorem findFrom_nil_zero (sv : List Char) : findFrom sv [] 0 = some 0 := by
  have hm : matchesAt sv [] 0 = true := by simp [matchesAt, substr]
  simp [findFrom, findFromK, hm]

theorem drop_drop_comm (l : List Char) (a b : Nat) : (l.drop a).drop b = l.drop (a + b) := by
  rw [List.drop_drop, Nat.add_comm]

/-- Splicing a slice back together around a match: the bytes from `start` up
to the match, then the token, then the bytes past the match, give the bytes
from `start` on. -/
theorem glue {sv token : List Char} {start i : Nat} (h1 : start ≤ i)
    (hm : matchesAt sv token i = true) :
    substr sv start (i - start) ++ token ++ sv.drop (i + token.length) = sv.drop start := by
  have h2 : (sv.drop start).drop (i - start) = sv.drop i := by
    rw [drop_drop_comm]
    congr 1
    omega
  have h3 : sv.drop i = token ++ sv.drop (i + token.length) := by
    conv_lhs => rw [← List.take_append_drop token.length (sv.drop i), matchesAt_take hm]
    rw [drop_drop_comm]
  calc substr sv start (i - start) ++ token ++ sv.drop (i + token.length)
      = substr sv start (i - start) ++ (token ++ sv.drop (i + token.length)) := by
        rw [List.append_assoc]
    _ = (sv.drop start).take (i - start) ++ (sv.drop start).drop (i - start) := by
        rw [← h3, substr, h2]
    _ = sv.drop start := List.take_append_drop _ _

/-- `substr(start)` (the one-argument form): everything from `start` on. -/
theorem substr_all (sv : List Char) (pos : Nat) :
    substr sv pos (sv.length - pos) = sv.drop pos := by
  rw [substr, ← List.length_drop]
  exact List.take_length _

/-- With an empty token the pre-scan of `replace` never terminates: the match
is always at the cursor and the cursor never advances. -/
theorem findAllFuel_nil_token (sv : List Char) : ∀ fuel, findAllFuel sv [] fuel 0 = none := by
  intro fuel
  induction fuel with
  | zero => rfl
  | succ fuel ih => simp [findAllFuel, findFrom_nil_zero, ih]

/-- With an empty token `split_keep_empty` never terminates. -/
theorem splitKeepEmptyFuel_nil_token (emit : Nat → Nat → α) (sv : List Char) :
    ∀ fuel, splitKeepEmptyFuel emit sv [] fuel 0 = none := by
  intro fuel
  induction fuel with
  | zero => rfl
  | succ fuel ih => simp [splitKeepEmptyFuel, findFrom_nil_zero, ih]

/-- With an empty token `split_ignore_empty` never terminates. -/
theorem splitIgnoreEmptyFuel_nil_token (emit : Nat → Nat → α) (sv : List Char) :
    ∀ fuel, splitIgnoreEmptyFuel emit sv [] fuel 0 = none := by
  intro fuel
  induction fuel with
  | zero => rfl
  | succ fuel ih => simp [splitIgnoreEmptyFuel, findFrom_nil_zero, ih]

/-- For a non-empty token, a match at `i` is the same as the token being an
initial segment of `sv.drop i`. -/
theorem matchesAt_iff_pfx {sv token : List Char} (ht : token ≠ []) (i : Nat) :
    matchesAt sv token i = true ↔ token <+: sv.drop i := by
  constructor
  · intro hm
    have h := List.take_append_drop token.length (sv.drop i)
    rw [matchesAt_take hm] at h
    exact ⟨_, h⟩
  · rintro ⟨t, hTt⟩
    have hi : i ≤ sv.length := by
      by_contra hgt
      push_neg at hgt
      rw [List.drop_eq_nil_of_le (le_of_lt hgt)] at hTt
      exact ht (List.append_eq_nil.mp hTt).1
    have hlen : token.length + t.length = sv.length - i := by
      have := congrArg List.length hTt
      simpa using this
    simp only [matchesAt, Bool.and_eq_true, decide_eq_true_eq, substr]
    refine ⟨by omega, ?_⟩
    rw [← hTt]
    exact List.take_left ..

theorem countOcc_nil (token : List Char) : countOcc token [] = 0 := by
  simp [countOcc]

theorem countOcc_not_pfx {token : List Char} {s : List Char}
    (h : ¬ token <+: s) : countOcc token s = countOcc token s.tail := by
  cases s with
  | nil => rfl
  | cons c rest =>
    have hb : ¬ (token ≠ [] ∧ token.isPrefixOf (c :: rest)) := by
      rintro ⟨-, hp⟩
      exact h (List.isPrefixOf_iff_prefix.mp hp)
    rw [countOcc.eq_2, dif_neg hb]
    rfl

theorem countOcc_drop {token : List Char} :
    ∀ (k : Nat) (s : List Char), (∀ j, j < k → ¬ token <+: s.drop j) →
      countOcc token s = countOcc token (s.drop k) := by
  intro k
  induction k with
  | zero => intro s _; simp
  | succ k ih =>
    intro s hno
    have h0 : ¬ token <+: s := by simpa using hno 0 (Nat.succ_pos k)
    have htail : ∀ j, j < k → ¬ token <+: s.tail.drop j := by
      intro j hj
      rw [← List.drop_one, drop_drop_comm]
      exact hno (1 + j) (by omega)
    rw [countOcc_not_pfx h0, ih s.tail htail, ← List.drop_one, drop_drop_comm,
      Nat.add_comm 1 k]

theorem countOcc_pfx_step {token : List Char} (ht : token ≠ []) {s : List Char}
    (h : token <+: s) : countOcc token s = countOcc token (s.drop token.length) + 1 := by
  cases s with
  | nil =>
    rw [List.prefix_nil] at h
    exact absurd h ht
  | cons c rest =>
    have hb : token ≠ [] ∧ token.isPrefixOf (c :: rest) :=
      ⟨ht, List.isPrefixOf_iff_prefix.mpr h⟩
    rw [countOcc.eq_2, dif_pos hb]

/-- If the scan from `pos` finds no occurrence, the suffix from `pos` holds no
occurrence at all. -/
theorem countOcc_eq_zero_of_none {sv token : List Char} (ht : token ≠ []) {pos : Nat}
    (h : findFrom sv token pos = none) : countOcc token (sv.drop pos) = 0 := by
  have hk : ∀ j, j < (sv.drop pos).length → ¬ token <+: (sv.drop pos).drop j := by
    intro j _ hp
    rw [drop_drop_comm, ← matchesAt_iff_pfx ht] at hp
    rw [findFrom_none h (pos + j) (by omega)] at hp
    exact Bool.false_ne_true hp
  rw [countOcc_drop (sv.drop pos).length _ hk, List.drop_length, countOcc_nil]

/-- A successful `find` step removes exactly one occurrence from the count. -/
theorem countOcc_step_of_some {sv token : List Char} (ht : token ≠ []) {pos p : Nat}
    (h : findFrom sv token pos = some p) :
    countOcc token (sv.drop pos) = countOcc token (sv.drop (p + token.length)) + 1 := by
  obtain ⟨hpp, hm, hno⟩ := findFrom_some h
  have h1 : countOcc token (sv.drop pos) = countOcc token (sv.drop p) := by
    have hk : ∀ j, j < p - pos → ¬ token <+: (sv.drop pos).drop j := by
      intro j hj hp'
      rw [drop_drop_comm, ← matchesAt_iff_pfx ht] at hp'
      rw [hno (pos + j) (by omega) (by omega)] at hp'
      exact Bool.false_ne_true hp'
    rw [countOcc_drop (p - pos) _ hk, drop_drop_comm]
    have heq : pos + (p - pos) = p := by omega
    rw [heq]
  rw [h1, countOcc_pfx_step ht ((matchesAt_iff_pfx ht p).mp hm), drop_drop_comm]

/-- Whatever position list the pre-scan returns satisfies the `GoodPos`
invariant. -/
theorem findAllFuel_good {sv token : List Char} :
    ∀ {fuel pos l}, findAllFuel sv token fuel pos = some l → GoodPos sv token pos l := by
  intro fuel
  induction fuel with
  | zero => intro pos l h; simp [findAllFuel] at h
  | succ fuel ih =>
    intro pos l h
    simp only [findAllFuel] at h
    cases hf : findFrom sv token pos with
    | some p =>
      rw [hf] at h
      simp only [Option.map_eq_some'] at h
      obtain ⟨rest, hrest, rfl⟩ := h
      obtain ⟨h1, h2, h3⟩ := findFrom_some hf
      exact ⟨h1, h2, h3, ih hrest⟩
    | none =>
      rw [hf] at h
      simp only [Option.some.injEq] at h
      subst h
      intro j hj _
      exact findFrom_none hf j hj

/-- For a non-empty token the pre-scan terminates within fuel
`sv.length + 1 - pos` and counts exactly the non-overlapping occurrences of
the token in the suffix from `pos`. -/
theorem findAllFuel_adequate (sv : List Char) {token : List Char} (ht : token ≠ []) :
    ∀ fuel pos, sv.length - pos < fuel →
      ∃ l, findAllFuel sv token fuel pos = some l ∧
        l.length = countOcc token (sv.drop pos) := by
  intro fuel
  induction fuel with
  | zero => intro pos h; omega
  | succ fuel ih =>
    intro pos hpos
    cases hf : findFrom sv token pos with
    | none =>
      refine ⟨[], by simp [findAllFuel, hf], ?_⟩
      rw [countOcc_eq_zero_of_none ht hf]
      rfl
    | some p =>
      obtain ⟨h1, h2, h3⟩ := findFrom_some hf
      have hple := matchesAt_le h2
      have htl : 1 ≤ token.length := List.length_pos.mpr ht
      obtain ⟨l, hl, hcount⟩ := ih (p + token.length) (by omega)
      refine ⟨p :: l, by simp [findAllFuel, hf, hl], ?_⟩
      rw [List.length_cons, hcount, countOcc_step_of_some ht hf]

/-- A non-empty list of good positions occupies `l.length` disjoint copies of
the token inside `sv`. -/
theorem goodPos_bound {sv token : List Char} :
    ∀ {l : List Nat} {cursor : Nat}, l ≠ [] → GoodPos sv token cursor l →
      cursor + l.length * token.length ≤ sv.length := by
  intro l
  induction l with
  | nil => intro cursor h _; exact absurd rfl h
  | cons p rest ih =>
    intro cursor _ hg
    obtain ⟨h1, h2, _, h4⟩ := hg
    have hple := matchesAt_le h2
    cases rest with
    | nil =>
      simp only [List.length_cons, List.length_nil]
      omega
    | cons q rest' =>
      have := ih (by simp) h4
      have e1 : ∀ a b : Nat, (a + 1) * b = a * b + b := fun a b => by
        rw [Nat.add_mul, one_mul]
      simp only [List.length_cons, e1] at this ⊢
      omega

/-- Exact-size law for the reconstruction pass: in additive form, output
length plus the removed token bytes plus the cursor equals the subject length
plus the inserted replacement bytes. -/
theorem reconstruct_length {sv token : List Char} (R : List Char) :
    ∀ {l : List Nat} {cursor : Nat}, GoodPos sv token cursor l → cursor ≤ sv.length →
      (reconstruct sv R token.length cursor l).length + l.length * token.length + cursor
        = sv.length + l.length * R.length := by
  intro l
  induction l with
  | nil =>
    intro cursor _ hc
    simp only [reconstruct, List.length_drop, List.length_nil, Nat.zero_mul]
    omega
  | cons p rest ih =>
    intro cursor hg hc
    obtain ⟨h1, h2, _, h4⟩ := hg
    have hple := matchesAt_le h2
    have ihr := ih h4 (by omega)
    simp only [reconstruct, substr, List.length_append, List.length_take, List.length_drop,
      List.length_cons]
    rw [Nat.add_mul, Nat.add_mul, one_mul, one_mul]
    omega

/-- Replacing each occurrence by the token itself reconstructs the suffix from
the cursor unchanged. -/
theorem reconstruct_id {sv token : List Char} :
    ∀ {l : List Nat} {cursor : Nat}, GoodPos sv token cursor l →
      reconstruct sv token token.length cursor l = sv.drop cursor := by
  intro l
  induction l with
  | nil => intro cursor _; rfl
  | cons p rest ih =>
    intro cursor hg
    obtain ⟨h1, h2, _, h4⟩ := hg
    show substr sv cursor (p - cursor) ++ token ++
        reconstruct sv token token.length (p + token.length) rest = sv.drop cursor
    rw [ih h4]
    exact glue h1 h2

/-- An occurrence of the token inside the suffix `sv.drop cursor` is a match
in `sv` at or after `cursor`. -/
theorem matchesAt_of_occ_drop {sv token : List Char} (ht : token ≠ []) {cursor : Nat}
    (h : token <:+: sv.drop cursor) : ∃ j, cursor ≤ j ∧ matchesAt sv token j = true := by
  obtain ⟨pre, post, heq⟩ := h
  refine ⟨cursor + pre.length, by omega, ?_⟩
  rw [matchesAt_iff_pfx ht, ← drop_drop_comm, ← heq, List.append_assoc, List.drop_left]
  exact ⟨post, rfl⟩

/-- An occurrence of the token inside the gap slice `[cursor, p)` is a match
in `sv` that lies entirely inside `[cursor, p)`. -/
theorem matchesAt_of_occ_substr {sv token : List Char} (ht : token ≠ []) {cursor p : Nat}
    (h : token <:+: substr sv cursor (p - cursor)) :
    ∃ j, cursor ≤ j ∧ j + token.length ≤ p ∧ matchesAt sv token j = true := by
  obtain ⟨pre, post, heq⟩ := h
  have htl := List.length_pos.mpr ht
  have hlen := congrArg List.length heq
  simp only [List.length_append, substr, List.length_take, List.length_drop] at hlen
  refine ⟨cursor + pre.length, by omega, by omega, ?_⟩
  rw [matchesAt_iff_pfx ht]
  have hdrop := congrArg (List.drop pre.length) heq
  rw [List.append_assoc, List.drop_left, substr, List.drop_take, drop_drop_comm] at hdrop
  exact (show token <+: _ from ⟨post, hdrop⟩).trans (List.take_prefix _ _)

/-- If no match starts anywhere at or after the cursor, the tail copied after
the last match holds no occurrence of the token. -/
theorem no_occ_drop {sv token : List Char} (ht : token ≠ []) {cursor : Nat}
    (h : NoMatchIn sv token cursor (sv.length + 1)) : ¬ token <:+: sv.drop cursor := by
  intro hocc
  obtain ⟨j, hj1, hj2⟩ := matchesAt_of_occ_drop ht hocc
  have := matchesAt_le hj2
  rw [h j hj1 (by omega)] at hj2
  exact Bool.false_ne_true hj2

/-- If no match starts in `[cursor, p)`, the gap slice `[cursor, p)` holds no
occurrence of the token. -/
theorem no_occ_substr {sv token : List Char} (ht : token ≠ []) {cursor p : Nat}
    (h : NoMatchIn sv token cursor p) : ¬ token <:+: substr sv cursor (p - cursor) := by
  intro hocc
  obtain ⟨j, hj1, hj2, hj3⟩ := matchesAt_of_occ_substr ht hocc
  have htl := List.length_pos.mpr ht
  rw [h j hj1 (by omega)] at hj3
  exact Bool.false_ne_true hj3

/-- The output of the reconstruction pass decomposes into `l.length + 1`
token-free segments interleaved with the replacement. -/
theorem reconstruct_segs {sv token : List Char} (R : List Char) (ht : token ≠ []) :
    ∀ {l : List Nat} {cursor : Nat}, GoodPos sv token cursor l →
      ∃ segs, reconstruct sv R token.length cursor l = joinWith R segs ∧
        segs.length = l.length + 1 ∧ ∀ s ∈ segs, ¬ token <:+: s := by
  intro l
  induction l with
  | nil =>
    intro cursor hg
    refine ⟨[sv.drop cursor], rfl, rfl, ?_⟩
    intro s hs
    rw [List.mem_singleton] at hs
    subst hs
    exact no_occ_drop ht hg
  | cons p rest ih =>
    intro cursor hg
    obtain ⟨h1, h2, h3, h4⟩ := hg
    obtain ⟨segs, hseg, hlen, hno⟩ := ih h4
    refine ⟨substr sv cursor (p - cursor) :: segs, ?_, by simp [hlen], ?_⟩
    · cases segs with
      | nil => simp at hlen
      | cons z zs =>
        simp only [reconstruct, joinWith]
        rw [hseg]
    · intro s hs
      rcases List.mem_cons.mp hs with rfl | hmem
      · exact no_occ_substr ht h3
      · exact hno s hmem

/-- For a non-empty token `split_keep_empty` terminates within the fuel, emits
`countOcc + 1` parts, and interleaving the parts with the token restores the
suffix from the cursor. -/
theorem splitKeep_adequate (sv : List Char) {token : List Char} (ht : token ≠ []) :
    ∀ fuel pos, sv.length - pos < fuel →
      ∃ parts, splitKeepEmptyFuel (substr sv) sv token fuel pos = some parts ∧
        parts.length = countOcc token (sv.drop pos) + 1 ∧
        joinWith token parts = sv.drop pos := by
  intro fuel
  induction fuel with
  | zero => intro pos h; omega
  | succ fuel ih =>
    intro pos hpos
    cases hf : findFrom sv token pos with
    | none =>
      refine ⟨[substr sv pos (sv.length - pos)], by simp [splitKeepEmptyFuel, hf], ?_, ?_⟩
      · simp [countOcc_eq_zero_of_none ht hf]
      · simp [joinWith, substr_all]
    | some i =>
      obtain ⟨h1, h2, h3⟩ := findFrom_some hf
      have hple := matchesAt_le h2
      have htl := List.length_pos.mpr ht
      obtain ⟨parts, hp, hplen, hjoin⟩ := ih (i + token.length) (by omega)
      refine ⟨substr sv pos (i - pos) :: parts,
        by simp [splitKeepEmptyFuel, hf, hp], ?_, ?_⟩
      · rw [List.length_cons, hplen, countOcc_step_of_some ht hf]
      · cases parts with
        | nil => simp at hplen
        | cons z zs =>
          show substr sv pos (i - pos) ++ token ++ joinWith token (z :: zs) = sv.drop pos
          rw [hjoin]
          exact glue h1 h2

/-- For a non-empty token `split_ignore_empty` terminates within the fuel and
every part it emits is non-empty. -/
theorem splitIgnore_adequate (sv : List Char) {token : List Char} (ht : token ≠ []) :
    ∀ fuel pos, sv.length - pos < fuel →
      ∃ parts, splitIgnoreEmptyFuel (substr sv) sv token fuel pos = some parts ∧
        ∀ x ∈ parts, x ≠ [] := by
  intro fuel
  induction fuel with
  | zero => intro pos h; omega
  | succ fuel ih =>
    intro pos hpos
    cases hf : findFrom sv token pos with
    | none =>
      by_cases hz : sv.length - pos > 0
      · refine ⟨[substr sv pos (sv.length - pos)],
          by simp [splitIgnoreEmptyFuel, hf, hz], ?_⟩
        intro x hx
        rw [List.mem_singleton] at hx
        subst hx
        intro hnil
        have := congrArg List.length hnil
        simp [substr] at this
        omega
      · exact ⟨[], by simp [splitIgnoreEmptyFuel, hf, hz], by simp⟩
    | some i =>
      obtain ⟨h1, h2, h3⟩ := findFrom_some hf
      have hple := matchesAt_le h2
      have htl := List.length_pos.mpr ht
      obtain ⟨parts, hp, hne⟩ := ih (i + token.length) (by omega)
      by_cases hz : i - pos > 0
      · refine ⟨substr sv pos (i - pos) :: parts,
          by simp [splitIgnoreEmptyFuel, hf, hz, hp], ?_⟩
        intro x hx
        rcases List.mem_cons.mp hx with rfl | hm
        · intro hnil
          have := congrArg List.length hnil
          simp [substr] at this
          omega
        · exact hne x hm
      · exact ⟨parts, by simp [splitIgnoreEmptyFuel, hf, hz, hp], hne⟩

/-- The two template instantiations of `split_keep_empty` emit the same
slices: mapping the view reader over one run gives the other. -/
theorem splitKeepEmptyFuel_map {α β : Type} {emit₁ : Nat → Nat → α} {emit₂ : Nat → Nat → β}
    {f : α → β} (hf : ∀ a b, f (emit₁ a b) = emit₂ a b) (sv token : List Char) :
    ∀ fuel start, (splitKeepEmptyFuel emit₁ sv token fuel start).map (List.map f)
      = splitKeepEmptyFuel emit₂ sv token fuel start := by
  intro fuel
  induction fuel with
  | zero => intro start; rfl
  | succ fuel ih =>
    intro start
    cases hfind : findFrom sv token start with
    | some i =>
      simp only [splitKeepEmptyFuel, hfind]
      rw [← ih (i + token.length)]
      cases h2 : splitKeepEmptyFuel emit₁ sv token fuel (i + token.length) with
      | none => rfl
      | some rest => simp [hf]
    | none => simp [splitKeepEmptyFuel, hfind, hf]

/-- The two template instantiations of `split_ignore_empty` agree likewise. -/
theorem splitIgnoreEmptyFuel_map {α β : Type} {emit₁ : Nat → Nat → α} {emit₂ : Nat → Nat → β}
    {f : α → β} (hf : ∀ a b, f (emit₁ a b) = emit₂ a b) (sv token : List Char) :
    ∀ fuel start, (splitIgnoreEmptyFuel emit₁ sv token fuel start).map (List.map f)
      = splitIgnoreEmptyFuel emit₂ sv token fuel start := by
  intro fuel
  induction fuel with
  | zero => intro start; rfl
  | succ fuel ih =>
    intro start
    cases hfind : findFrom sv token start with
    | some i =>
      simp only [splitIgnoreEmptyFuel, hfind]
      by_cases hz : i - start > 0
      · simp only [if_pos hz]
        rw [← ih (i + token.length)]
        cases h2 : splitIgnoreEmptyFuel emit₁ sv token fuel (i + token.length) with
        | none => rfl
        | some rest => simp [hf]
      · simp only [if_neg hz]
        exact ih (i + token.length)
    | none =>
      simp only [splitIgnoreEmptyFuel, hfind]
      by_cases hz : sv.length - start > 0
      · simp [hz, hf]
      · simp [hz]

/-- The comparison walk over one and the same sequence always succeeds,
whatever junk the one-past-the-end reads return. -/
theorem compareLoopJunk_self {S : List Char} (j₁ j₂ : Char) :
    ∀ r k, k + r = S.length → compareLoopJunk S S j₁ j₂ k r = true := by
  intro r
  induction r with
  | zero => intro k _; rfl
  | succ r ih =>
    intro k hk
    simp only [compareLoopJunk]
    rcases Nat.lt_or_ge (k + 1) S.length with hlt | hge
    · have e : S.getD (k + 1) j₁ = S.getD (k + 1) j₂ := by
        rw [List.getD_eq_getElem?_getD, List.getD_eq_getElem?_getD,
          List.getElem?_eq_getElem hlt]
        rfl
      rw [if_pos e]
      exact ih (k + 1) (by omega)
    · have hk1 : k + 1 = S.length := by omega
      by_cases hj : S.getD (k + 1) j₁ = S.getD (k + 1) j₂
      · rw [if_pos hj]
        have hr : r = 0 := by omega
        subst hr
        rfl
      · rw [if_neg hj]
        simp [hk1]

/-- `detail::compare(x, x, last)` returns true for any non-empty `x`. -/
theorem compareJunk_self {S : List Char} (hS : S ≠ []) (j₁ j₂ : Char) :
    compareJunk S S j₁ j₂ = true := by
  obtain ⟨c, rest, rfl⟩ := List.exists_cons_of_ne_nil hS
  simp only [compareJunk, List.getD_cons_zero, if_pos]
  exact compareLoopJunk_self j₁ j₂ (c :: rest).length 0 (by simp)

/-- When the effective `size_t` stride `d = (cc + skip) % 2^64` is positive
and the cursor can never wrap (`sv.length + d ≤ 2^64`), the chunking loop
terminates within the fuel and its `j`-th chunk is the slice of width
`character_count` at cursor `i + j * d`, as long as that cursor is in range. -/
theorem chunkFuel_adequate (sv : List Char) {cc skip d : Nat}
    (hdef : (cc + skip) % sizeTW = d) (hd : 0 < d) (hw : sv.length + d ≤ sizeTW) :
    ∀ fuel i, sv.length - i < fuel →
      ∃ l, chunkFuel sv cc skip fuel i = some l ∧
        ∀ j, l.get? j = if i + j * d < sv.length
          then some (substr sv (i + j * d) cc) else none := by
  intro fuel
  induction fuel with
  | zero => intro i h; omega
  | succ fuel ih =>
    intro i hi
    by_cases hin : i < sv.length
    · have hadv : (i + (cc + skip) % sizeTW) % sizeTW = i + d := by
        rw [hdef]
        exact Nat.mod_eq_of_lt (by omega)
      obtain ⟨l, hl, hlaw⟩ := ih (i + d) (by omega)
      refine ⟨substr sv i cc :: l, by simp [chunkFuel, hin, hadv, hl], ?_⟩
      intro j
      cases j with
      | zero => simp [hin]
      | succ j =>
        rw [List.get?_cons_succ, hlaw j]
        have e : i + d + j * d = i + (j + 1) * d := by
          rw [Nat.add_mul, one_mul]
          omega
        rw [e]
    · refine ⟨[], by simp [chunkFuel, hin], ?_⟩
      intro j
      rw [List.get?_nil, if_neg (by omega)]

/-- When `cc + skip` wraps to a zero `size_t` stride, the cursor never moves
and the chunking loop never terminates on a non-empty subject. -/
theorem chunkFuel_stride_zero {sv : List Char} {cc skip : Nat}
    (hd : (cc + skip) % sizeTW = 0) (hsv : sv ≠ []) :
    ∀ fuel, chunkFuel sv cc skip fuel 0 = none := by
  intro fuel
  induction fuel with
  | zero => rfl
  | succ fuel ih =>
    have h0 : 0 < sv.length := List.length_pos.mpr hsv
    simp [chunkFuel, h0, hd, ih]

/-- When the first `s₂.length` bytes agree, the checked comparison walk always
reaches the dereference at offset `s₂.length` — one past the end of `s₂`. -/
theorem compareLoopChecked_agree_none {s₁ s₂ : List Char}
    (hagree : ∀ m, m < s₂.length → s₁.get? m = s₂.get? m) :
    ∀ r k, k + r = s₂.length → 1 ≤ r → compareLoopChecked s₁ s₂ k r = none := by
  intro r
  induction r with
  | zero => intro k _ h; omega
  | succ r ih =>
    intro k hk _
    rcases Nat.lt_or_ge (k + 1) s₂.length with hlt | hge
    · have h2 : s₂.get? (k + 1) = some (s₂.get ⟨k + 1, hlt⟩) := List.get?_eq_get hlt
      have h1 : s₁.get? (k + 1) = some (s₂.get ⟨k + 1, hlt⟩) := by
        rw [hagree (k + 1) hlt]
        exact h2
      simp only [compareLoopChecked, h1, h2, if_pos]
      exact ih (k + 1) (by omega) (by omega)
    · have h2 : s₂.get? (k + 1) = none := List.get?_eq_none.mpr (by omega)
      simp only [compareLoopChecked, h2]
      cases s₁.get? (k + 1) <;> rfl

/-- Whenever `test` is a non-empty initial segment of `sv`, the walk of
`starts_with` dereferences one past the end of `test` — the out-of-bounds
branch of the checked embedding is reached. -/
theorem starts_with_checked_pfx_none {sv test : List Char} (ht : test ≠ [])
    (hp : test <+: sv) : starts_with_checked sv test = none := by
  have htl := List.length_pos.mpr ht
  have hlenle : test.length ≤ sv.length := hp.length_le
  have hagree : ∀ m, m < test.length → sv.get? m = test.get? m := by
    intro m hm
    obtain ⟨t, hteq⟩ := hp
    subst hteq
    exact List.get?_append hm
  rw [starts_with_checked, if_neg (by omega)]
  have h0t : test[0]? = some (test.get ⟨0, htl⟩) := by
    have := List.get?_eq_get htl
    simpa [List.get?_eq_getElem?] using this
  have h0s : sv[0]? = some (test.get ⟨0, htl⟩) := by
    have := hagree 0 htl
    simp only [List.get?_eq_getElem?] at this
    rw [this]
    exact h0t
  have hloop := compareLoopChecked_agree_none hagree test.length 0 (by omega) (by omega)
  simp [compareChecked, h0s, h0t, hloop]

/-- C1: for every subject and non-empty search token, `replace` terminates
and its output length is exactly `len(S) - n*len(T) + n*len(R)` where `n` is
the number of non-overlapping left-to-right occurrences of `T` in `S`; with
`n = 0` the output is a copy of `S` unchanged.  (`n*len(T) ≤ len(S)` is
recorded so that the truncated subtraction states the intended equality.) -/
theorem claim_C1_replace_length (sv search_tok repl : List Char) (ht : search_tok ≠ []) :
    ∃ out, replace sv search_tok repl = some out ∧
      countOcc search_tok sv * search_tok.length ≤ sv.length ∧
      out.length = sv.length - countOcc search_tok sv * search_tok.length
        + countOcc search_tok sv * repl.length ∧
      (countOcc search_tok sv = 0 → out = sv) := by
  obtain ⟨l, hl, hcount⟩ := findAllFuel_adequate sv ht (sv.length + 1) 0 (by omega)
  rw [List.drop_zero] at hcount
  cases l with
  | nil =>
    refine ⟨sv, by simp [replace, hl], ?_, ?_, fun _ => rfl⟩
    · rw [← hcount]
      simp
    · rw [← hcount]
      simp
  | cons p rest =>
    have hg := findAllFuel_good hl
    have hbound := goodPos_bound (by simp) hg
    have hlen := reconstruct_length repl hg (by omega)
    refine ⟨reconstruct sv repl search_tok.length 0 (p :: rest),
      by simp [replace, hl], ?_, ?_, ?_⟩
    · rw [← hcount]
      omega
    · rw [← hcount]
      omega
    · intro h0
      rw [← hcount] at h0
      simp at h0

/-- Witness for C1 at `replace("abcabc", "b", "XY")`. -/
theorem claim_C1_witness :
    ∃ out, replace "abcabc".toList "b".toList "XY".toList = some out ∧
      countOcc "b".toList "abcabc".toList * "b".toList.length ≤ "abcabc".toList.length ∧
      out.length = "abcabc".toList.length
        - countOcc "b".toList "abcabc".toList * "b".toList.length
        + countOcc "b".toList "abcabc".toList * "XY".toList.length ∧
      (countOcc "b".toList "abcabc".toList = 0 → out = "abcabc".toList) :=
  claim_C1_replace_length "abcabc".toList "b".toList "XY".toList (by decide)

/-- C2: for every subject and non-empty token, `split(S, T, true)` terminates
with exactly `count_nonoverlapping_occurrences(S, T) + 1` parts, in document
order, and interleaving the parts with the token reproduces `S` exactly. -/
theorem claim_C2_split_round_trip (sv token : List Char) (ht : token ≠ []) :
    ∃ parts, split sv token true = some parts ∧
      parts.length = countOcc token sv + 1 ∧
      joinWith token (parts.map (View.materialize sv)) = sv := by
  obtain ⟨cparts, hc, hclen, hcjoin⟩ := splitKeep_adequate sv ht (sv.length + 1) 0 (by omega)
  rw [List.drop_zero] at hclen hcjoin
  have hemit : ∀ a b : Nat, View.materialize sv (View.mk a b) = substr sv a b :=
    fun a b => rfl
  have hmap := splitKeepEmptyFuel_map hemit sv token (sv.length + 1) 0
  rw [hc] at hmap
  cases hv : splitKeepEmptyFuel View.mk sv token (sv.length + 1) 0 with
  | none =>
    rw [hv] at hmap
    simp at hmap
  | some vparts =>
    rw [hv] at hmap
    simp only [Option.map_some', Option.some.injEq] at hmap
    refine ⟨vparts, by simp [split, split_keep_empty, hv], ?_, ?_⟩
    · have := congrArg List.length hmap
      simp only [List.length_map] at this
      rw [this, hclen]
    · rw [hmap, hcjoin]

/-- Witness for C2 at `split("a,b,,c", ",", true)`. -/
theorem claim_C2_witness :
    ∃ parts, split "a,b,,c".toList ",".toList true = some parts ∧
      parts.length = countOcc ",".toList "a,b,,c".toList + 1 ∧
      joinWith ",".toList (parts.map (View.materialize "a,b,,c".toList))
        = "a,b,,c".toList :=
  claim_C2_split_round_trip "a,b,,c".toList ",".toList (by decide)

/-- C3 counterexample: `replace("aab", "ab", "b")` returns `"ab"`, which
contains the search token `"ab"` although the replacement `"b"` does not —
an occurrence of the token survives, assembled across a copy/replacement
junction. -/
theorem claim_C3_cex :
    replace "aab".toList "ab".toList "b".toList = some "ab".toList ∧
    "ab".toList <:+: "ab".toList ∧ ¬ "ab".toList <:+: "b".toList := by
  refine ⟨by decide, by decide, by decide⟩

/-- C3 (amended): for a non-empty search token whose replacement does not
contain it, the output of `replace` decomposes into `n + 1` segments copied
from the subject, interleaved with the replacement, such that neither the
replacement nor any single copied segment contains an occurrence of the
search token (an occurrence may still span a junction between them). -/
theorem claim_C3_amended (sv token R : List Char) (ht : token ≠ [])
    (hR : ¬ token <:+: R) {out : List Char} (hout : replace sv token R = some out) :
    ∃ segs, out = joinWith R segs ∧ segs.length = countOcc token sv + 1 ∧
      ∀ s ∈ R :: segs, ¬ token <:+: s := by
  obtain ⟨l, hl, hcount⟩ := findAllFuel_adequate sv ht (sv.length + 1) 0 (by omega)
  rw [List.drop_zero] at hcount
  have hg := findAllFuel_good hl
  cases l with
  | nil =>
    simp only [replace, hl, Option.some.injEq] at hout
    refine ⟨[sv], by rw [← hout]; rfl, by simp [← hcount], ?_⟩
    intro s hs
    rcases List.mem_cons.mp hs with rfl | hmem
    · exact hR
    · rw [List.mem_singleton] at hmem
      subst hmem
      have := no_occ_drop ht hg
      rwa [List.drop_zero] at this
  | cons p rest =>
    simp only [replace, hl, Option.some.injEq] at hout
    obtain ⟨segs, hseg, hslen, hno⟩ := reconstruct_segs R ht hg
    refine ⟨segs, by rw [← hout, hseg], by rw [hslen, hcount], ?_⟩
    intro s hs
    rcases List.mem_cons.mp hs with rfl | hmem
    · exact hR
    · exact hno s hmem

/-- Witness for the amended C3 at `replace("aab", "ab", "c") = "ac"`. -/
theorem claim_C3_witness :
    ∃ segs, "ac".toList = joinWith "c".toList segs ∧
      segs.length = countOcc "ab".toList "aab".toList + 1 ∧
      ∀ s ∈ "c".toList :: segs, ¬ "ab".toList <:+: s :=
  claim_C3_amended "aab".toList "ab".toList "c".toList (by decide) (by decide)
    (by decide)

/-- C4 is refuted: whenever `test` is a non-empty initial segment of `sv`
the comparison walk dereferences offset `len(test)` — one past the end of
`test`, and one past the end of `sv` too when the lengths are equal — so in
the checked embedding the out-of-bounds branch is reached (result `none`);
a mismatching walk stays in bounds (result `some false`). -/
theorem claim_C4_oob_read :
    (∀ sv test : List Char, test ≠ [] → test <+: sv →
      starts_with_checked sv test = none) ∧
    starts_with_checked "a".toList "a".toList = none ∧
    starts_with_checked "ab".toList "a".toList = none ∧
    ends_with_checked "a".toList "a".toList = none ∧
    ends_with_checked "ab".toList "b".toList = none ∧
    starts_with_checked "ab".toList "b".toList = some false := by
  refine ⟨?_, by decide, by decide, by decide, by decide, by decide⟩
  intro sv test ht hp
  exact starts_with_checked_pfx_none ht hp

/-- Witness for C4: the general out-of-bounds statement applied at
`starts_with("ab", "a")`. -/
theorem claim_C4_witness : starts_with_checked "ab".toList "a".toList = none :=
  claim_C4_oob_read.1 "ab".toList "a".toList (by decide) (by decide)

/-- C5 is refuted by the code: with an empty token the scan of
`split_keep_empty`, `split_ignore_empty` and of the pre-scan of `replace`
never terminates (no amount of fuel completes it: the zero-length match is
always found at the cursor and the cursor never advances), so the functions
neither fail with an error condition nor return a defined result. -/
theorem claim_C5_empty_token_loops :
    (∀ fuel, splitKeepEmptyFuel (substr "a".toList) "a".toList [] fuel 0 = none) ∧
    (∀ fuel, splitIgnoreEmptyFuel (substr "a".toList) "a".toList [] fuel 0 = none) ∧
    (∀ fuel, findAllFuel "a".toList [] fuel 0 = none) ∧
    split "a".toList [] true = none ∧
    split "a".toList [] false = none ∧
    split_copy "a".toList [] true = none ∧
    split_copy "a".toList [] false = none ∧
    replace "a".toList [] [] = none := by
  refine ⟨fun fuel => splitKeepEmptyFuel_nil_token _ _ fuel,
    fun fuel => splitIgnoreEmptyFuel_nil_token _ _ fuel,
    fun fuel => findAllFuel_nil_token _ fuel, ?_, ?_, ?_, ?_, ?_⟩
  · simp [split, split_keep_empty, splitKeepEmptyFuel_nil_token]
  · simp [split, split_ignore_empty, splitIgnoreEmptyFuel_nil_token]
  · simp [split_copy, split_keep_empty, splitKeepEmptyFuel_nil_token]
  · simp [split_copy, split_ignore_empty, splitIgnoreEmptyFuel_nil_token]
  · simp [replace, findAllFuel_nil_token]

/-- C6 counterexample: with the empty token (explicitly included in the
claim) the identity law fails — already at `S = ""`, `T = ""` the pre-scan
of `replace` never terminates, so no copy of `S` is returned. -/
theorem claim_C6_cex : replace [] [] [] ≠ some [] := by decide

/-- C6 (amended): the identity law `replace(S, T, T) = S` holds for every
subject `S` and every NON-empty token `T`. -/
theorem claim_C6_identity (sv token : List Char) (ht : token ≠ []) :
    replace sv token token = some sv := by
  obtain ⟨l, hl, _⟩ := findAllFuel_adequate sv ht (sv.length + 1) 0 (by omega)
  have hg := findAllFuel_good hl
  cases l with
  | nil => simp [replace, hl]
  | cons p rest =>
    simp only [replace, hl, Option.some.injEq]
    rw [reconstruct_id hg, List.drop_zero]

/-- Witness for the amended C6 at `replace("abcabc", "bc", "bc")`. -/
theorem claim_C6_witness :
    replace "abcabc".toList "bc".toList "bc".toList = some "abcabc".toList :=
  claim_C6_identity "abcabc".toList "bc".toList (by decide)

/-- C7: `starts_with`/`ends_with` return false when the subject is empty,
when the test is empty, and when the test is longer than the subject; and for
every non-empty `S` both `starts_with(S, S)` and `ends_with(S, S)` return
true — independently of the junk bytes any one-past-the-end read returns. -/
theorem claim_C7_guards_and_self (sv test S : List Char) (j₁ j₂ : Char) :
    (sv = [] → starts_with sv test j₁ j₂ = false ∧ ends_with sv test j₁ j₂ = false) ∧
    (test = [] → starts_with sv test j₁ j₂ = false ∧ ends_with sv test j₁ j₂ = false) ∧
    (sv.length < test.length →
      starts_with sv test j₁ j₂ = false ∧ ends_with sv test j₁ j₂ = false) ∧
    (S ≠ [] → starts_with S S j₁ j₂ = true ∧ ends_with S S j₁ j₂ = true) := by
  refine ⟨?_, ?_, ?_, ?_⟩
  · rintro rfl
    constructor <;> simp [starts_with, ends_with]
  · rintro rfl
    constructor <;> simp [starts_with, ends_with]
  · intro h
    constructor
    · rw [starts_with, if_pos (Or.inr (Or.inr h))]
    · rw [ends_with, if_pos (Or.inr (Or.inr h))]
  · intro hS
    have h1 : ¬ (S.length = 0 ∨ S.length = 0 ∨ S.length < S.length) := by
      have := List.length_pos.mpr hS
      omega
    constructor
    · rw [starts_with, if_neg h1]
      exact compareJunk_self hS j₁ j₂
    · rw [ends_with, if_neg h1]
      exact compareJunk_self (by simpa using hS) j₁ j₂

/-- Witness for C7: reflexivity at `"abc"` and the empty-subject guard. -/
theorem claim_C7_witness :
    (starts_with "abc".toList "abc".toList 'x' 'y' = true ∧
      ends_with "abc".toList "abc".toList 'x' 'y' = true) ∧
    (starts_with [] "x".toList 'x' 'y' = false ∧
      ends_with [] "x".toList 'x' 'y' = false) :=
  ⟨(claim_C7_guards_and_self [] "x".toList "abc".toList 'x' 'y').2.2.2 (by decide),
    (claim_C7_guards_and_self [] "x".toList "abc".toList 'x' 'y').1 rfl⟩

/-- C8: whatever sequence `split_copy(S, T, false)` returns, none of its
elements is the empty string (with an empty token nothing is returned at all:
the scan does not terminate — see C5). -/
theorem claim_C8_no_empty_parts (sv token : List Char) (parts : List (List Char))
    (h : split_copy sv token false = some parts) : ∀ x ∈ parts, x ≠ [] := by
  by_cases ht : token = []
  · subst ht
    simp only [split_copy, Bool.false_eq_true, if_false, split_ignore_empty,
      splitIgnoreEmptyFuel_nil_token] at h
    exact absurd h (by simp)
  · obtain ⟨parts2, hp, hne⟩ := splitIgnore_adequate sv ht (sv.length + 1) 0 (by omega)
    simp only [split_copy, Bool.false_eq_true, if_false, split_ignore_empty, hp,
      Option.some.injEq] at h
    subst h
    exact hne

/-- Witness for C8 at `split_copy("a,b,,c", ",", false) = ["a","b","c"]`. -/
theorem claim_C8_witness :
    split_copy "a,b,,c".toList ",".toList false
      = some ["a".toList, "b".toList, "c".toList] ∧
    "a".toList ≠ [] ∧ "b".toList ≠ [] ∧ "c".toList ≠ [] :=
  ⟨by decide,
    claim_C8_no_empty_parts "a,b,,c".toList ",".toList
      ["a".toList, "b".toList, "c".toList] (by decide) "a".toList (by decide),
    claim_C8_no_empty_parts "a,b,,c".toList ",".toList
      ["a".toList, "b".toList, "c".toList] (by decide) "b".toList (by decide),
    claim_C8_no_empty_parts "a,b,,c".toList ",".toList
      ["a".toList, "b".toList, "c".toList] (by decide) "c".toList (by decide)⟩

/-- C9 counterexample: the cursor advance is `size_t` arithmetic, so at
`chunk("abc", 2^64 - 1, 1)` the advance `character_count + skip` wraps to `0`;
the claim asserts termination with stride `character_count + skip` (which
would yield `["abc"]`), but the loop never moves the cursor and never
terminates — even at the adequate fuel the run does not complete. -/
theorem claim_C9_cex :
    ascii_split "abc".toList (2 ^ 64 - 1) 1 = none ∧
    ascii_split "abc".toList (2 ^ 64 - 1) 1 ≠ some ["abc".toList] := by
  refine ⟨by decide, by decide⟩

/-- C9 (amended): the chunker returns the empty sequence when the width is
zero.  Otherwise the cursor starts at 0 and advances per chunk by the
effective `size_t` stride `d = (character_count + skip) % 2^64`: whenever
`d > 0` and the cursor cannot wrap (`len(sv) + d ≤ 2^64`), the `j`-th chunk
is the slice of up to `character_count` bytes at cursor `j * d`, every chunk
has length at most the width, and — when `character_count + skip` does not
itself overflow, i.e. `character_count ≤ d` — every non-final chunk has
exactly the width; when the stride wraps to `0` the loop never terminates on
a non-empty subject; and the two documented examples hold. -/
theorem claim_C9_chunker_wrap :
    (∀ (sv : List Char) (skip : Nat), ascii_split sv 0 skip = some []) ∧
    (∀ (sv : List Char) (cc skip : Nat), 0 < cc →
      0 < (cc + skip) % sizeTW → sv.length + (cc + skip) % sizeTW ≤ sizeTW →
      ∃ l, ascii_split sv cc skip = some l ∧
        (∀ j, l.get? j = if j * ((cc + skip) % sizeTW) < sv.length
          then some (substr sv (j * ((cc + skip) % sizeTW)) cc) else none) ∧
        (∀ c ∈ l, c.length ≤ cc) ∧
        (cc ≤ (cc + skip) % sizeTW →
          ∀ j, (j + 1) * ((cc + skip) % sizeTW) < sv.length →
            l.get? j = some (substr sv (j * ((cc + skip) % sizeTW)) cc) ∧
            (substr sv (j * ((cc + skip) % sizeTW)) cc).length = cc)) ∧
    (∀ (sv : List Char) (cc skip : Nat), (cc + skip) % sizeTW = 0 → sv ≠ [] →
      ∀ fuel, chunkFuel sv cc skip fuel 0 = none) ∧
    ascii_split "abcdef123".toList 3 0
      = some ["abc".toList, "def".toList, "123".toList] ∧
    ascii_split "abc,def,123".toList 3 1
      = some ["abc".toList, "def".toList, "123".toList] := by
  refine ⟨?_, ?_, ?_, by decide, by decide⟩
  · intro sv skip
    simp [ascii_split]
  · intro sv cc skip hcc hd hw
    obtain ⟨l, hl, hlaw0⟩ :=
      chunkFuel_adequate sv rfl hd hw (sv.length + 1) 0 (by omega)
    have hlaw : ∀ j, l.get? j = if j * ((cc + skip) % sizeTW) < sv.length
        then some (substr sv (j * ((cc + skip) % sizeTW)) cc) else none := by
      intro j
      simpa using hlaw0 j
    have emul : ∀ j : Nat,
        (j + 1) * ((cc + skip) % sizeTW) = j * ((cc + skip) % sizeTW) + (cc + skip) % sizeTW :=
      fun j => by rw [Nat.add_mul, one_mul]
    refine ⟨l, by rw [ascii_split, if_neg (by omega), hl], hlaw, ?_, ?_⟩
    · intro c hc
      obtain ⟨j, hj⟩ := List.mem_iff_get?.mp hc
      have hlj := hlaw j
      rw [hj] at hlj
      by_cases hcond : j * ((cc + skip) % sizeTW) < sv.length
      · rw [if_pos hcond] at hlj
        have hc' : c = substr sv (j * ((cc + skip) % sizeTW)) cc := by
          injection hlj
        rw [hc']
        simp [substr]
      · rw [if_neg hcond] at hlj
        exact absurd hlj (by simp)
    · intro hccd j hj
      have hj0 : j * ((cc + skip) % sizeTW) < sv.length := by
        have := emul j
        omega
      refine ⟨by rw [hlaw j, if_pos hj0], ?_⟩
      have := emul j
      simp only [substr, List.length_take, List.length_drop]
      omega
  · intro sv cc skip hd hsv fuel
    exact chunkFuel_stride_zero hd hsv fuel

/-- Witness for the amended C9: the positive-stride branch applied at
`chunk("ab", 3)` and the wrapped-to-zero-stride branch at
`chunk("abc", 2^64 - 1, 1)`. -/
theorem claim_C9_witness :
    (∃ l, ascii_split "ab".toList 3 0 = some l ∧
      (∀ j, l.get? j = if j * ((3 + 0) % sizeTW) < "ab".toList.length
        then some (substr "ab".toList (j * ((3 + 0) % sizeTW)) 3) else none) ∧
      (∀ c ∈ l, c.length ≤ 3) ∧
      (3 ≤ (3 + 0) % sizeTW →
        ∀ j, (j + 1) * ((3 + 0) % sizeTW) < "ab".toList.length →
          l.get? j = some (substr "ab".toList (j * ((3 + 0) % sizeTW)) 3) ∧
          (substr "ab".toList (j * ((3 + 0) % sizeTW)) 3).length = 3)) ∧
    chunkFuel "abc".toList (2 ^ 64 - 1) 1 5 0 = none :=
  ⟨claim_C9_chunker_wrap.2.1 "ab".toList 3 0 (by decide) (by decide) (by decide),
    claim_C9_chunker_wrap.2.2.1 "abc".toList (2 ^ 64 - 1) 1 (by decide) (by decide) 5⟩

/-- C10: for a non-empty token the owned-string variants agree byte for byte
with the view variants, for both empty-part policies and for the first-split
pair. -/
theorem claim_C10_copy_agrees (sv token : List Char) (ht : token ≠ []) :
    (∀ keep_empty_parts : Bool,
      (split sv token keep_empty_parts).map (List.map (View.materialize sv))
        = split_copy sv token keep_empty_parts) ∧
    (View.materialize sv (split_first sv token).1,
      View.materialize sv (split_first sv token).2) = split_first_copy sv token := by
  have hemit : ∀ a b : Nat, View.materialize sv (View.mk a b) = substr sv a b :=
    fun a b => rfl
  constructor
  · intro keep
    cases keep
    · simp only [split, split_copy, Bool.false_eq_true, if_false, split_ignore_empty]
      exact splitIgnoreEmptyFuel_map hemit sv token (sv.length + 1) 0
    · simp only [split, split_copy, if_true, split_keep_empty]
      exact splitKeepEmptyFuel_map hemit sv token (sv.length + 1) 0
  · rw [split_first, split_first_copy]
    cases hf : findFrom sv token 0 with
    | some i => rfl
    | none =>
      simp only [View.materialize, substr, List.drop_zero, List.take_length,
        List.take_zero, Prod.mk.injEq]

/-- Witness for C10 at `split_first("key=value=1", "=")`. -/
theorem claim_C10_witness :
    (View.materialize "key=value=1".toList
        (split_first "key=value=1".toList "=".toList).1,
      View.materialize "key=value=1".toList
        (split_first "key=value=1".toList "=".toList).2)
      = split_first_copy "key=value=1".toList "=".toList :=
  (claim_C10_copy_agrees "key=value=1".toList "=".toList (by decide)).2

end StringUtils
